import Mathlib

/-
Verification development for the simple-photo-meta Exiv2 bindings
(src/simple_photo_meta/exiv2_bindings.cpp).

The bindings expose four operations on an opened image adapter:
getIptcTag, setIptcTag, to_dict and from_dict, plus a static dictionary
humanToRawKey mapping human labels to raw Exiv2 IPTC keys.

Embedding choices:
- The in-memory IPTC record store (Exiv2.IptcData) is a list of records in
  storage order.  Exiv2.IptcData.findKey returns the first record whose key
  equals the searched key; IptcData.erase removes one record and returns the
  iterator to the next; IptcData.add appends a record at the end of the
  store.  These collaborator facts are reflected directly in the list
  operations below.
- The two facilities of the external library whose behaviour is not part of
  this repository, namely whether the Exiv2.IptcKey constructor accepts a raw
  key string (it throws on a syntactically invalid key) and the tag-naming
  facility IptcKey.tagName, are kept abstract as an oracle structure
  Exiv2Lib; the bindings are embedded relative to an arbitrary oracle.
- A thrown C++ exception is an Except.error value; py::object values at the
  boundary are the tagged variant PyVal (string scalar or list of strings),
  and a std::map of the boundary is an association list (std::map iterates
  its entries with strictly sorted unique keys; the predicate mapWF states
  that invariant where a claim needs it).
- image_.setIptcData(data) followed by image_.writeMetadata() persists the
  in-memory store into the file; the adapter state records the in-memory
  store, the persisted store and the number of flushes performed.
-/

namespace SimplePhotoMeta

/-- A raw IPTC record: the dotted raw tag identifier and its string value.
Embeds Exiv2.Iptcdatum as used by the bindings (string values only). -/
structure Iptcdatum where
  key : String
  value : String
deriving DecidableEq

/-- The IPTC record store of an image, in storage order (Exiv2.IptcData). -/
abbrev IptcData := List Iptcdatum

/-- Oracle for the external Exiv2 library facilities used by the bindings:
validKey says whether the IptcKey constructor accepts a raw key string, and
tagName is the tag-naming facility (IptcKey.tagName) for a raw key. -/
structure Exiv2Lib where
  validKey : String → Bool
  tagName : String → String

/-- Error crossing the binding boundary: constructing an Exiv2.IptcKey from
a syntactically invalid raw key throws. -/
inductive Exiv2Error where
  | invalidKey (k : String)
deriving DecidableEq

/-- Value at the Python boundary: a string scalar or a list of strings. -/
inductive PyVal where
  | scalar (s : String)
  | list (xs : List String)
deriving DecidableEq

/-- Document at the Python boundary: an optional iptc section given as an
association list from labels to values (standing for a string-keyed map). -/
structure PyDoc where
  iptc : Option (List (String × PyVal))
deriving DecidableEq

/-- State of an opened adapter: the in-memory record store, the record
store persisted in the image file, and the number of flushes performed
(calls of image_.writeMetadata()). -/
structure Adapter where
  mem : IptcData
  file : IptcData
  flushes : Nat
deriving DecidableEq

/-- The static dictionary of the bindings, mapping human-readable IPTC
labels to raw Exiv2 keys (humanToRawKey in the source). -/
def humanToRawKey : List (String × String) := [
  ("Caption", "Iptc.Application2.Caption"),
  ("Keywords", "Iptc.Application2.Keywords"),
  ("By-line", "Iptc.Application2.Byline"),
  ("By-lineTitle", "Iptc.Application2.BylineTitle"),
  ("DateCreated", "Iptc.Application2.DateCreated"),
  ("ObjectName", "Iptc.Application2.ObjectName"),
  ("Credit", "Iptc.Application2.Credit"),
  ("Source", "Iptc.Application2.Source"),
  ("CopyrightNotice", "Iptc.Application2.CopyrightNotice"),
  ("Headline", "Iptc.Application2.Headline"),
  ("SpecialInstructions", "Iptc.Application2.SpecialInstructions"),
  ("Category", "Iptc.Application2.Category"),
  ("SupplementalCategories", "Iptc.Application2.SupplementalCategories"),
  ("Urgency", "Iptc.Application2.Urgency"),
  ("City", "Iptc.Application2.City"),
  ("Province-State", "Iptc.Application2.Province-State"),
  ("Country-PrimaryLocationName", "Iptc.Application2.Country-PrimaryLocationName"),
  ("OriginalTransmissionReference", "Iptc.Application2.OriginalTransmissionReference")]

/-- Dictionary lookup used by from_dict: humanToRawKey.find(label). -/
def lookupRaw (label : String) : Option String :=
  humanToRawKey.lookup label

/-- Exiv2Bind.getIptcTag: constructs IptcKey(key) (throws on an invalid
key), then data.findKey returns the first record whose identifier equals
the key; its string value is returned, or the empty string if absent. -/
def getIptcTag (lib : Exiv2Lib) (a : Adapter) (key : String) :
    Except Exiv2Error String :=
  if lib.validKey key then
    .ok (match a.mem.find? (fun d => d.key == key) with
         | some d => d.value
         | none => "")
  else .error (.invalidKey key)

/-- The erase loop of setIptcTag and from_dict:
it = data.findKey(iptcKey); while (it != end and it.key() == key)
it = data.erase(it).  Starting at the first record whose identifier equals
the key, it erases the contiguous run of matching records and stops at the
first non-matching identifier; everything after that run is kept. -/
def eraseMatchingRun (k : String) : IptcData → IptcData
  | [] => []
  | d :: rest =>
    if d.key == k then rest.dropWhile (fun e => e.key == k)
    else d :: eraseMatchingRun k rest

/-- Exiv2Bind.setIptcTag: constructs IptcKey(key) (throws on an invalid
key), erases the matching run, appends one new record with the given value
(IptcData.add appends at the end of the store), then persists the store
(setIptcData + writeMetadata). -/
def setIptcTag (lib : Exiv2Lib) (a : Adapter) (key value : String) :
    Except Exiv2Error Adapter :=
  if lib.validKey key then
    let mem := eraseMatchingRun key a.mem ++ [⟨key, value⟩]
    .ok ⟨mem, mem, a.flushes + 1⟩
  else .error (.invalidKey key)

/-- Insertion into a std::set of strings: sorted, without duplicates. -/
def setInsert : List String → String → List String
  | [], k => [k]
  | x :: rest, k =>
    if k == x then x :: rest
    else if k < x then k :: x :: rest
    else x :: setInsert rest k

/-- The uniqueKeys collection loop of to_dict:
for md in data, uniqueKeys.insert(md.key()). -/
def insertKeys : List String → IptcData → List String
  | s, [] => s
  | s, d :: rest => insertKeys (setInsert s d.key) rest

/-- All distinct raw identifiers present in the store, in sorted order
(iteration order of the std::set uniqueKeys in to_dict). -/
def uniqueSortedKeys (l : IptcData) : List String :=
  insertKeys [] l

/-- The value collection loop of to_dict: starting from
data.findKey(iptcKey), collect values while the identifier matches (the
first contiguous run of records under the key). -/
def collectRun (k : String) (l : IptcData) : List String :=
  ((l.dropWhile (fun d => !(d.key == k))).takeWhile
    (fun d => d.key == k)).map Iptcdatum.value

/-- The deduplication loop of to_dict, with its seen-set: a value is kept
when it was not seen before (first occurrence wins, order preserved). -/
def dedupFirstAux (seen : List String) : List String → List String
  | [] => []
  | v :: rest =>
    if seen.contains v then dedupFirstAux seen rest
    else v :: dedupFirstAux (v :: seen) rest

/-- Deduplication preserving first-occurrence order. -/
def dedupFirst (l : List String) : List String :=
  dedupFirstAux [] l

/-- The label resolution of to_dict: label = iptcKey.tagName(); if the
library provides no name (empty string) the raw key itself is the label. -/
def labelOf (lib : Exiv2Lib) (rawKey : String) : String :=
  let n := lib.tagName rawKey
  if n == "" then rawKey else n

/-- The per-identifier body of the to_dict loop: resolve the label, collect
the run of values, deduplicate, then produce a list when more than one
distinct value remains or the label is flagged multi-valued
(isMulti = (label == "Keywords")), a scalar when exactly one distinct value
remains, and nothing when no value remains. -/
def exportEntry (lib : Exiv2Lib) (mem : IptcData) (rawKey : String) :
    Option (String × PyVal) :=
  let label := labelOf lib rawKey
  let uniq := dedupFirst (collectRun rawKey mem)
  if 1 < uniq.length || label == "Keywords" then some (label, .list uniq)
  else
    match uniq with
    | [] => none
    | u :: _ => some (label, .scalar u)

/-- The label of the entry the to_dict loop would insert for a raw key. -/
def entryLabel (lib : Exiv2Lib) (mem : IptcData) (rawKey : String) :
    Option String :=
  (exportEntry lib mem rawKey).map Prod.fst

/-- Assignment iptc[label] = v on a std::map held as a sorted association
list: replace the value when the label is present, otherwise insert at the
sorted position. -/
def mapInsert : List (String × PyVal) → String → PyVal →
    List (String × PyVal)
  | [], k, v => [(k, v)]
  | (k0, v0) :: rest, k, v =>
    if k == k0 then (k, v) :: rest
    else if k < k0 then (k, v) :: (k0, v0) :: rest
    else (k0, v0) :: mapInsert rest k v

/-- One iteration of the to_dict loop on the output map. -/
def exportStep (lib : Exiv2Lib) (mem : IptcData)
    (m : List (String × PyVal)) (k : String) : List (String × PyVal) :=
  match exportEntry lib mem k with
  | none => m
  | some (label, v) => mapInsert m label v

/-- The to_dict loop over the distinct raw identifiers. -/
def exportFold (lib : Exiv2Lib) (mem : IptcData)
    (m : List (String × PyVal)) : List String → List (String × PyVal)
  | [] => m
  | k :: ks => exportFold lib mem (exportStep lib mem m k) ks

/-- The iptc section produced by Exiv2Bind.to_dict for a record store. -/
def exportIptc (lib : Exiv2Lib) (mem : IptcData) : List (String × PyVal) :=
  exportFold lib mem [] (uniqueSortedKeys mem)

/-- Exiv2Bind.to_dict: the iptc section nested under the top-level key. -/
def to_dict (lib : Exiv2Lib) (a : Adapter) : PyDoc :=
  ⟨some (exportIptc lib a.mem)⟩

/-- One (label, value) pair of the from_dict loop: look the label up in
humanToRawKey and skip silently when unknown; otherwise construct
IptcKey(rawKey) (throws on an invalid key), erase the matching run, then
append one record per list element, or a single record for a scalar
(IptcData.add appends at the end of the store). -/
def processPair (lib : Exiv2Lib) (data : IptcData) (p : String × PyVal) :
    Except Exiv2Error IptcData :=
  match lookupRaw p.1 with
  | none => .ok data
  | some rawKey =>
    if lib.validKey rawKey then
      let d1 := eraseMatchingRun rawKey data
      match p.2 with
      | .list xs => .ok (d1 ++ xs.map (fun x => ⟨rawKey, x⟩))
      | .scalar s => .ok (d1 ++ [⟨rawKey, s⟩])
    else .error (.invalidKey rawKey)

/-- The from_dict loop over the pairs of the iptc section, stopping at the
first thrown error. -/
def processPairs (lib : Exiv2Lib) :
    IptcData → List (String × PyVal) → Except Exiv2Error IptcData
  | data, [] => .ok data
  | data, p :: rest =>
    match processPair lib data p with
    | .error e => .error e
    | .ok d1 => processPairs lib d1 rest

/-- Exiv2Bind.from_dict: a document without an iptc section is a no-op
(no mutation, no flush); otherwise every pair of the section is processed
in order and the store is persisted once at the end
(setIptcData + writeMetadata). -/
def from_dict (lib : Exiv2Lib) (a : Adapter) (doc : PyDoc) :
    Except Exiv2Error Adapter :=
  match doc.iptc with
  | none => .ok a
  | some sec =>
    match processPairs lib a.mem sec with
    | .error e => .error e
    | .ok mem => .ok ⟨mem, mem, a.flushes + 1⟩

/-- The store is ordered by identifier (the premise stated by the design
for the deletion loop: matching records form one contiguous run). -/
def keysSorted (l : IptcData) : Prop :=
  List.Pairwise (fun a b => a.key ≤ b.key) l

/-- Wellformedness of an iptc section as a std::map value: the labels are
strictly sorted, hence unique. -/
def mapWF (sec : List (String × PyVal)) : Prop :=
  List.Pairwise (fun p q => p.1 < q.1) sec

/-- The elements a PyVal holds: a scalar holds itself, a list its items. -/
def elemsOf : PyVal → List String
  | .scalar s => [s]
  | .list xs => xs

/-- The raw identifiers resolved from a section by the dictionary. -/
def rawsOf (sec : List (String × PyVal)) : List String :=
  sec.filterMap (fun p => lookupRaw p.1)

/-- The records from_dict appends for one resolved pair. -/
def groupOf (rawKey : String) (v : PyVal) : IptcData :=
  (elemsOf v).map (fun x => ⟨rawKey, x⟩)

/-- The records from_dict appends for a whole section, in section order. -/
def groupsOf : List (String × PyVal) → IptcData
  | [] => []
  | p :: rest =>
    (match lookupRaw p.1 with
     | none => []
     | some r => groupOf r p.2) ++ groupsOf rest

/-- Reverse of the dictionary, used only to build concrete oracles. -/
def rawToHuman : List (String × String) :=
  humanToRawKey.map (fun p => (p.2, p.1))

/-- A concrete oracle for witnesses: every key is accepted, and the tag
name of a raw key of the dictionary is its dictionary label. -/
def libTest : Exiv2Lib where
  validKey := fun _ => true
  tagName := fun rk => (rawToHuman.lookup rk).getD rk

/-- A concrete oracle rejecting every key, for witnesses about the
invalid-key error path. -/
def libReject : Exiv2Lib where
  validKey := fun _ => false
  tagName := fun _ => ""

deriving instance DecidableEq for Except

theorem eraseMatchingRun_of_forall_ne (k : String) (l : IptcData)
    (h : ∀ d ∈ l, d.key ≠ k) : eraseMatchingRun k l = l := by
  induction l with
  | nil => rfl
  | cons d rest ih =>
    have hd : (d.key == k) = false :=
      beq_eq_false_iff_ne.mpr (h d (List.mem_cons_self d rest))
    simp only [eraseMatchingRun, hd, Bool.false_eq_true, if_false]
    rw [ih (fun e he => h e (List.mem_cons_of_mem _ he))]

theorem filter_dropWhile_run (k k' : String) (h : k' ≠ k) (l : IptcData) :
    (l.dropWhile (fun e => e.key == k)).filter (fun d => d.key == k') =
      l.filter (fun d => d.key == k') := by
  induction l with
  | nil => rfl
  | cons e rest ih =>
    by_cases he : e.key = k
    · have h1 : (e.key == k) = true := beq_iff_eq.mpr he
      have h2 : (e.key == k') = false := by
        refine beq_eq_false_iff_ne.mpr ?_
        rw [he]; exact fun hh => h hh.symm
      simp [List.dropWhile_cons, h1, List.filter_cons, h2, ih]
    · have h1 : (e.key == k) = false := beq_eq_false_iff_ne.mpr he
      simp [List.dropWhile_cons, h1]

theorem eraseMatchingRun_filter_ne (k k' : String) (h : k' ≠ k)
    (l : IptcData) :
    (eraseMatchingRun k l).filter (fun d => d.key == k') =
      l.filter (fun d => d.key == k') := by
  induction l with
  | nil => rfl
  | cons d rest ih =>
    by_cases hd : d.key = k
    · have h1 : (d.key == k) = true := beq_iff_eq.mpr hd
      have h2 : (d.key == k') = false := by
        refine beq_eq_false_iff_ne.mpr ?_
        rw [hd]; exact fun hh => h hh.symm
      simp [eraseMatchingRun, h1, List.filter_cons, h2,
        filter_dropWhile_run k k' h rest]
    · have h1 : (d.key == k) = false := beq_eq_false_iff_ne.mpr hd
      simp [eraseMatchingRun, h1, List.filter_cons, ih]

theorem dropWhile_run_sorted_append (k : String) (l1 l2 : IptcData)
    (hs : keysSorted l1) (hlb : ∀ d ∈ l1, k ≤ d.key)
    (h2 : ∀ d ∈ l2, d.key ≠ k) :
    (l1 ++ l2).dropWhile (fun e => e.key == k) =
      l1.filter (fun d => !(d.key == k)) ++ l2 := by
  induction l1 with
  | nil =>
    cases l2 with
    | nil => rfl
    | cons e r =>
      have he : (e.key == k) = false :=
        beq_eq_false_iff_ne.mpr (h2 e (List.mem_cons_self e r))
      simp [List.dropWhile_cons, he]
  | cons d l1' ih =>
    have hp := List.pairwise_cons.mp hs
    by_cases hd : d.key = k
    · have h1 : (d.key == k) = true := beq_iff_eq.mpr hd
      have hlb' : ∀ e ∈ l1', k ≤ e.key := by
        intro e he; rw [← hd]; exact hp.1 e he
      simp [List.dropWhile_cons, h1, List.filter_cons,
        ih hp.2 hlb' ]
    · have h1 : (d.key == k) = false := beq_eq_false_iff_ne.mpr hd
      have hkd : k < d.key :=
        lt_of_le_of_ne (hlb d (List.mem_cons_self d l1')) (fun hh => hd hh.symm)
      have hrest : l1'.filter (fun e => !(e.key == k)) = l1' := by
        refine List.filter_eq_self.mpr ?_
        intro e he
        have : k < e.key := lt_of_lt_of_le hkd (hp.1 e he)
        simp [beq_eq_false_iff_ne.mpr (fun hh : e.key = k => absurd hh (ne_of_gt this))]
      simp [List.dropWhile_cons, h1, List.filter_cons, hrest]

theorem eraseMatchingRun_sorted_append (k : String) (l1 l2 : IptcData)
    (hs1 : keysSorted l1) (h2 : ∀ d ∈ l2, d.key ≠ k) :
    eraseMatchingRun k (l1 ++ l2) =
      l1.filter (fun d => !(d.key == k)) ++ l2 := by
  induction l1 with
  | nil => simpa using eraseMatchingRun_of_forall_ne k l2 h2
  | cons d l1' ih =>
    have hp := List.pairwise_cons.mp hs1
    by_cases hd : d.key = k
    · have h1 : (d.key == k) = true := beq_iff_eq.mpr hd
      have hlb' : ∀ e ∈ l1', k ≤ e.key := by
        intro e he; rw [← hd]; exact hp.1 e he
      simp only [List.cons_append, eraseMatchingRun, h1, if_true,
        List.filter_cons, h1, Bool.not_true, Bool.false_eq_true, if_false]
      exact dropWhile_run_sorted_append k l1' l2 hp.2 hlb' h2
    · have h1 : (d.key == k) = false := beq_eq_false_iff_ne.mpr hd
      simp only [List.cons_append, eraseMatchingRun, h1, Bool.false_eq_true,
        if_false, List.filter_cons, Bool.not_false, if_true, List.append_eq]
      rw [ih hp.2]

theorem eraseMatchingRun_sorted (k : String) (l : IptcData)
    (hs : keysSorted l) :
    eraseMatchingRun k l = l.filter (fun d => !(d.key == k)) := by
  simpa using eraseMatchingRun_sorted_append k l [] hs (by simp)

theorem eraseMatchingRun_clean_append (k : String) (l1 l2 : IptcData)
    (h1 : ∀ d ∈ l1, d.key ≠ k) :
    eraseMatchingRun k (l1 ++ l2) = l1 ++ eraseMatchingRun k l2 := by
  induction l1 with
  | nil => simp
  | cons d l1' ih =>
    have hd : (d.key == k) = false :=
      beq_eq_false_iff_ne.mpr (h1 d (List.mem_cons_self d l1'))
    simp only [List.cons_append, eraseMatchingRun, hd, Bool.false_eq_true,
      if_false, List.append_eq]
    rw [ih (fun e he => h1 e (List.mem_cons_of_mem _ he))]

theorem setIptcTag_ok (lib : Exiv2Lib) (a : Adapter) (k v : String)
    (hv : lib.validKey k = true) :
    setIptcTag lib a k v = .ok ⟨eraseMatchingRun k a.mem ++ [⟨k, v⟩],
      eraseMatchingRun k a.mem ++ [⟨k, v⟩], a.flushes + 1⟩ := by
  simp [setIptcTag, hv]

theorem eraseMatchingRun_single (k v : String) :
    eraseMatchingRun k [⟨k, v⟩] = [] := by
  simp [eraseMatchingRun]

theorem mem_filter_not_key (k : String) (l : IptcData) (d : Iptcdatum)
    (hd : d ∈ l.filter (fun d => !(d.key == k))) : d.key ≠ k := by
  have := (List.mem_filter.mp hd).2
  simpa using this

theorem find?_clean_append (k : String) (l1 l2 : IptcData)
    (h1 : ∀ d ∈ l1, d.key ≠ k) :
    (l1 ++ l2).find? (fun d => d.key == k) =
      l2.find? (fun d => d.key == k) := by
  induction l1 with
  | nil => simp
  | cons d l1' ih =>
    have hd : (d.key == k) = false :=
      beq_eq_false_iff_ne.mpr (h1 d (List.mem_cons_self d l1'))
    simp only [List.cons_append, List.find?_cons, hd]
    exact ih (fun e he => h1 e (List.mem_cons_of_mem _ he))

/-- C2: on an identifier-ordered store, setIptcTag with a valid raw key
deletes exactly the records whose identifier equals the key (the deletion
loop stops at the first non-matching identifier, which on an ordered store
ends the only run), appends exactly one new record with the given value,
and persists the full record set; afterwards exactly one record exists
under the key and its value is the given value. -/
theorem setIptcTag_replaces_matching_run (lib : Exiv2Lib) (a : Adapter)
    (k v : String) (hv : lib.validKey k = true) (hs : keysSorted a.mem) :
    ∃ a2, setIptcTag lib a k v = .ok a2 ∧
      a2.mem = a.mem.filter (fun d => !(d.key == k)) ++ [⟨k, v⟩] ∧
      a2.file = a2.mem ∧
      a2.flushes = a.flushes + 1 ∧
      a2.mem.filter (fun d => d.key == k) = [⟨k, v⟩] := by
  have hmem := eraseMatchingRun_sorted k a.mem hs
  refine ⟨_, setIptcTag_ok lib a k v hv, ?_, rfl, rfl, ?_⟩
  · simpa using hmem
  · rw [hmem, List.filter_append, List.filter_filter]
    simp [List.filter_cons]

/-- C2 witness. -/
theorem setIptcTag_replaces_matching_run_witness :
    ∃ a2, setIptcTag libTest ⟨[], [], 0⟩ "Iptc.Application2.City" "Paris"
        = .ok a2 ∧
      a2.mem = (⟨[], [], 0⟩ : Adapter).mem.filter
          (fun d => !(d.key == "Iptc.Application2.City")) ++
          [⟨"Iptc.Application2.City", "Paris"⟩] ∧
      a2.file = a2.mem ∧
      a2.flushes = (⟨[], [], 0⟩ : Adapter).flushes + 1 ∧
      a2.mem.filter (fun d => d.key == "Iptc.Application2.City") =
        [⟨"Iptc.Application2.City", "Paris"⟩] :=
  setIptcTag_replaces_matching_run libTest ⟨[], [], 0⟩
    "Iptc.Application2.City" "Paris" rfl List.Pairwise.nil

/-- C3: setIptcTag on a raw key leaves the stored records of every other
raw identifier unchanged, in memory and in the persisted file. -/
theorem setIptcTag_preserves_other_keys (lib : Exiv2Lib) (a : Adapter)
    (k v k2 : String) (hv : lib.validKey k = true) (hne : k2 ≠ k)
    (hsync : a.file = a.mem) :
    ∃ a2, setIptcTag lib a k v = .ok a2 ∧
      a2.mem.filter (fun d => d.key == k2) =
        a.mem.filter (fun d => d.key == k2) ∧
      a2.file.filter (fun d => d.key == k2) =
        a.file.filter (fun d => d.key == k2) := by
  have hk2 : (k == k2) = false :=
    beq_eq_false_iff_ne.mpr (fun h => hne h.symm)
  refine ⟨_, setIptcTag_ok lib a k v hv, ?_, ?_⟩
  · simp [List.filter_append, List.filter_cons, hk2,
      eraseMatchingRun_filter_ne k k2 hne a.mem]
  · rw [hsync]
    simp [List.filter_append, List.filter_cons, hk2,
      eraseMatchingRun_filter_ne k k2 hne a.mem]

/-- C3 witness. -/
theorem setIptcTag_preserves_other_keys_witness :
    ∃ a2, setIptcTag libTest
        ⟨[⟨"Iptc.Application2.Caption", "c"⟩],
         [⟨"Iptc.Application2.Caption", "c"⟩], 0⟩
        "Iptc.Application2.City" "Paris" = .ok a2 ∧
      a2.mem.filter (fun d => d.key == "Iptc.Application2.Caption") =
        [⟨"Iptc.Application2.Caption", "c"⟩].filter
          (fun d => d.key == "Iptc.Application2.Caption") ∧
      a2.file.filter (fun d => d.key == "Iptc.Application2.Caption") =
        [⟨"Iptc.Application2.Caption", "c"⟩].filter
          (fun d => d.key == "Iptc.Application2.Caption") :=
  setIptcTag_preserves_other_keys libTest
    ⟨[⟨"Iptc.Application2.Caption", "c"⟩],
     [⟨"Iptc.Application2.Caption", "c"⟩], 0⟩
    "Iptc.Application2.City" "Paris" "Iptc.Application2.Caption"
    rfl (by decide) rfl

/-- C6: on an identifier-ordered store, calling setIptcTag twice with the
identical key and value yields the same record store as one call (in
memory and on file), and exactly one record remains under the key. -/
theorem setIptcTag_idempotent (lib : Exiv2Lib) (a : Adapter) (k v : String)
    (hv : lib.validKey k = true) (hs : keysSorted a.mem) :
    ∃ a1 a2, setIptcTag lib a k v = .ok a1 ∧
      setIptcTag lib a1 k v = .ok a2 ∧
      a2.mem = a1.mem ∧ a2.file = a1.file ∧
      a1.mem.filter (fun d => d.key == k) = [⟨k, v⟩] := by
  have hmem := eraseMatchingRun_sorted k a.mem hs
  refine ⟨_, _, setIptcTag_ok lib a k v hv, setIptcTag_ok lib _ k v hv,
    ?_, ?_, ?_⟩
  all_goals
    simp only []
    rw [hmem]
  · rw [eraseMatchingRun_clean_append k _ [⟨k, v⟩]
      (mem_filter_not_key k a.mem), eraseMatchingRun_single]
    simp
  · rw [eraseMatchingRun_clean_append k _ [⟨k, v⟩]
      (mem_filter_not_key k a.mem), eraseMatchingRun_single]
    simp
  · rw [List.filter_append, List.filter_filter]
    simp [List.filter_cons]

/-- C6 witness. -/
theorem setIptcTag_idempotent_witness :
    ∃ a1 a2, setIptcTag libTest ⟨[⟨"k", "old"⟩], [⟨"k", "old"⟩], 0⟩ "k" "v"
        = .ok a1 ∧
      setIptcTag libTest a1 "k" "v" = .ok a2 ∧
      a2.mem = a1.mem ∧ a2.file = a1.file ∧
      a1.mem.filter (fun d => d.key == "k") = [⟨"k", "v"⟩] :=
  setIptcTag_idempotent libTest ⟨[⟨"k", "old"⟩], [⟨"k", "old"⟩], 0⟩ "k" "v"
    rfl (List.pairwise_singleton _ _)

/-- C8: from_dict on a document without an iptc section succeeds and
returns the adapter unchanged: no record is mutated and no flush is
performed, so the metadata of the file is untouched. -/
theorem from_dict_missing_section_noop (lib : Exiv2Lib) (a : Adapter) :
    from_dict lib a ⟨none⟩ = .ok a := rfl

/-- C9: getIptcTag on a raw key rejected by the IptcKey constructor raises
the construction error instead of returning the empty string; the
empty-string absent result arises exactly for an accepted key that no
record of the store matches. -/
theorem getIptcTag_invalid_key_raises (lib : Exiv2Lib) (a : Adapter)
    (k : String) :
    (lib.validKey k = false →
      getIptcTag lib a k = .error (.invalidKey k)) ∧
    (lib.validKey k = true → (∀ d ∈ a.mem, d.key ≠ k) →
      getIptcTag lib a k = .ok "") := by
  constructor
  · intro h
    simp [getIptcTag, h]
  · intro h habs
    have hnone : a.mem.find? (fun d => d.key == k) = none :=
      List.find?_eq_none.mpr
        (fun d hd => by simp [beq_eq_false_iff_ne.mpr (habs d hd)])
    simp [getIptcTag, h, hnone]

/-- C9 witness. -/
theorem getIptcTag_invalid_key_raises_witness :
    getIptcTag libReject ⟨[], [], 0⟩ "NotAKey"
        = .error (.invalidKey "NotAKey") ∧
    getIptcTag libTest ⟨[⟨"b", "2"⟩], [⟨"b", "2"⟩], 0⟩ "a" = .ok "" :=
  ⟨(getIptcTag_invalid_key_raises libReject ⟨[], [], 0⟩ "NotAKey").1 rfl,
   (getIptcTag_invalid_key_raises libTest
      ⟨[⟨"b", "2"⟩], [⟨"b", "2"⟩], 0⟩ "a").2 rfl (by decide)⟩

/-- C10: after a successful setIptcTag on an identifier-ordered store,
getIptcTag on the same key returns exactly the written value; the new
record is the unique record under the key and the first one found. -/
theorem get_after_set_roundtrip (lib : Exiv2Lib) (a : Adapter)
    (k v : String) (hv : lib.validKey k = true) (hs : keysSorted a.mem) :
    ∃ a2, setIptcTag lib a k v = .ok a2 ∧
      getIptcTag lib a2 k = .ok v ∧
      a2.mem.filter (fun d => d.key == k) = [⟨k, v⟩] := by
  have hmem := eraseMatchingRun_sorted k a.mem hs
  refine ⟨_, setIptcTag_ok lib a k v hv, ?_, ?_⟩
  · have hfind : ((eraseMatchingRun k a.mem ++ [⟨k, v⟩] : IptcData)).find?
        (fun d => d.key == k) = some (⟨k, v⟩ : Iptcdatum) := by
      rw [hmem, find?_clean_append k _ [⟨k, v⟩] (mem_filter_not_key k a.mem)]
      simp [List.find?_cons]
    simp [getIptcTag, hv, hfind]
  · rw [hmem, List.filter_append, List.filter_filter]
    simp [List.filter_cons]

theorem dropWhile_ne_clean (k : String) (l : IptcData)
    (h : ∀ d ∈ l, d.key ≠ k) :
    l.dropWhile (fun d => !(d.key == k)) = [] := by
  induction l with
  | nil => rfl
  | cons d rest ih =>
    have hd : (d.key == k) = false :=
      beq_eq_false_iff_ne.mpr (h d (List.mem_cons_self d rest))
    simp only [List.dropWhile_cons, hd, Bool.not_false, if_true]
    exact ih (fun e he => h e (List.mem_cons_of_mem _ he))

theorem collectRun_append_left (k : String) (l1 l2 : IptcData)
    (h : ∀ d ∈ l1, d.key ≠ k) :
    collectRun k (l1 ++ l2) = collectRun k l2 := by
  induction l1 with
  | nil => rfl
  | cons d l1' ih =>
    have hd : (d.key == k) = false :=
      beq_eq_false_iff_ne.mpr (h d (List.mem_cons_self d l1'))
    simp only [collectRun, List.cons_append, List.dropWhile_cons, hd,
      Bool.not_false, if_true]
    exact ih (fun e he => h e (List.mem_cons_of_mem _ he))

theorem takeWhile_run (k : String) (g rest : IptcData)
    (hg : ∀ d ∈ g, d.key = k) (hrest : ∀ d ∈ rest, d.key ≠ k) :
    (g ++ rest).takeWhile (fun d => d.key == k) = g := by
  induction g with
  | nil =>
    cases rest with
    | nil => rfl
    | cons e r =>
      have he : (e.key == k) = false :=
        beq_eq_false_iff_ne.mpr (hrest e (List.mem_cons_self e r))
      simp [List.takeWhile_cons, he]
  | cons d g' ih =>
    have hd : (d.key == k) = true :=
      beq_iff_eq.mpr (hg d (List.mem_cons_self d g'))
    simp only [List.cons_append, List.takeWhile_cons, hd, if_true]
    rw [ih (fun e he => hg e (List.mem_cons_of_mem _ he))]

theorem collectRun_run (k : String) (g rest : IptcData)
    (hg : ∀ d ∈ g, d.key = k) (hrest : ∀ d ∈ rest, d.key ≠ k) :
    collectRun k (g ++ rest) = g.map Iptcdatum.value := by
  cases g with
  | nil => simp [collectRun, dropWhile_ne_clean k rest hrest]
  | cons d g' =>
    have hd : (d.key == k) = true :=
      beq_iff_eq.mpr (hg d (List.mem_cons_self d g'))
    simp only [collectRun, List.cons_append, List.dropWhile_cons, hd,
      Bool.not_true, Bool.false_eq_true, if_false]
    rw [show (d :: (g' ++ rest)) = (d :: g') ++ rest from rfl,
      takeWhile_run k (d :: g') rest hg hrest]

theorem setInsert_head_self (rk : String) (t : List String) :
    setInsert (rk :: t) rk = rk :: t := by
  simp [setInsert]

theorem insertKeys_const (rk : String) (t : List String)
    (xs : List String) :
    insertKeys (rk :: t) (xs.map (fun s => (⟨rk, s⟩ : Iptcdatum))) =
      rk :: t := by
  induction xs with
  | nil => rfl
  | cons x xs ih => simpa [insertKeys, setInsert_head_self] using ih

theorem uniqueSortedKeys_group (rk x : String) (xs : List String) :
    uniqueSortedKeys ((⟨rk, x⟩ : Iptcdatum) ::
      xs.map (fun s => (⟨rk, s⟩ : Iptcdatum))) = [rk] := by
  simp only [uniqueSortedKeys, insertKeys, setInsert]
  exact insertKeys_const rk [] xs

theorem exportIptc_group (lib : Exiv2Lib) (rk x : String)
    (xs : List String) :
    exportIptc lib ((⟨rk, x⟩ : Iptcdatum) ::
        xs.map (fun s => (⟨rk, s⟩ : Iptcdatum))) =
      (match exportEntry lib ((⟨rk, x⟩ : Iptcdatum) ::
          xs.map (fun s => (⟨rk, s⟩ : Iptcdatum))) rk with
       | none => []
       | some (L, v) => [(L, v)]) := by
  rw [exportIptc, uniqueSortedKeys_group]
  simp only [exportFold, exportStep]
  cases exportEntry lib ((⟨rk, x⟩ : Iptcdatum) ::
      xs.map (fun s => (⟨rk, s⟩ : Iptcdatum))) rk with
  | none => rfl
  | some p => cases p with | mk L v => rfl

theorem collectRun_group_cons (rk x : String) (xs : List String) :
    collectRun rk ((⟨rk, x⟩ : Iptcdatum) ::
      xs.map (fun s => (⟨rk, s⟩ : Iptcdatum))) = x :: xs := by
  have := collectRun_run rk ((⟨rk, x⟩ : Iptcdatum) ::
      xs.map (fun s => (⟨rk, s⟩ : Iptcdatum))) []
    (by intro d hd
        rcases List.mem_cons.mp hd with h | h
        · rw [h]
        · rcases List.mem_map.mp h with ⟨s, _, rfl⟩; rfl)
    (by intro d hd; cases hd)
  simpa [List.map_map,
    show (Iptcdatum.value ∘ fun s => (⟨rk, s⟩ : Iptcdatum)) = id from rfl]
    using this

theorem dedupFirst_single (x : String) : dedupFirst [x] = [x] := by
  simp [dedupFirst, dedupFirstAux]

theorem dedupFirst_aba (A B : String) (h : A ≠ B) :
    dedupFirst [A, B, A] = [A, B] := by
  have h1 : (B == A) = false := beq_eq_false_iff_ne.mpr (fun hh => h hh.symm)
  have h2 : (A == A) = true := by simp
  have h3 : (A == B) = false := beq_eq_false_iff_ne.mpr h
  simp [dedupFirst, dedupFirstAux, List.contains, List.elem, h1, h2, h3]

theorem mem_mapInsert (m : List (String × PyVal)) (k : String) (v : PyVal)
    (p : String × PyVal) (hp : p ∈ mapInsert m k v) :
    p ∈ m ∨ p = (k, v) := by
  induction m with
  | nil =>
    right
    simpa [mapInsert] using hp
  | cons q m' ih =>
    obtain ⟨k0, v0⟩ := q
    unfold mapInsert at hp
    split at hp
    · rcases List.mem_cons.mp hp with h | h
      · exact Or.inr h
      · exact Or.inl (List.mem_cons_of_mem _ h)
    · split at hp
      · rcases List.mem_cons.mp hp with h | h
        · exact Or.inr h
        · exact Or.inl h
      · rcases List.mem_cons.mp hp with h | h
        · exact Or.inl (h ▸ List.mem_cons_self _ _)
        · rcases ih h with h2 | h2
          · exact Or.inl (List.mem_cons_of_mem _ h2)
          · exact Or.inr h2

theorem exportFold_mem (lib : Exiv2Lib) (mem : IptcData) (ks : List String)
    (m : List (String × PyVal)) (p : String × PyVal)
    (hp : p ∈ exportFold lib mem m ks) :
    p ∈ m ∨ ∃ k, exportEntry lib mem k = some p := by
  induction ks generalizing m with
  | nil => exact Or.inl hp
  | cons k ks ih =>
    rcases ih _ hp with h | h
    · unfold exportStep at h
      revert h
      cases he : exportEntry lib mem k with
      | none => exact fun h => Or.inl h
      | some q =>
        intro h
        rcases mem_mapInsert m q.1 q.2 p h with h2 | h2
        · exact Or.inl h2
        · exact Or.inr ⟨k, by rw [he, h2]⟩
    · exact Or.inr h

theorem exportEntry_shape (lib : Exiv2Lib) (mem : IptcData) (k : String)
    (L : String) (v : PyVal) (h : exportEntry lib mem k = some (L, v)) :
    (L = "Keywords" → ∃ xs, v = .list xs) ∧
    (∀ xs, v = .list xs → L = "Keywords" ∨ 1 < xs.length) := by
  unfold exportEntry at h
  dsimp only at h
  split at h
  · rename_i hcond
    injection h with h
    injection h with hL hv
    subst hL hv
    constructor
    · intro _
      exact ⟨_, rfl⟩
    · intro xs hxs
      injection hxs with hxs
      subst hxs
      have hcond2 : 1 < (dedupFirst (collectRun k mem)).length ∨
          labelOf lib k = "Keywords" := by simpa using hcond
      rcases hcond2 with hlen | hkw
      · exact Or.inr hlen
      · exact Or.inl hkw
  · rename_i hcond
    split at h
    · exact absurd h (by simp)
    · injection h with h
      injection h with hL hv
      subst hL hv
      have hkw : labelOf lib k ≠ "Keywords" := by
        intro hh
        simp [hh] at hcond
      constructor
      · intro hh
        exact absurd hh hkw
      · intro xs hxs
        exact PyVal.noConfusion hxs

/-- C4: to_dict represents the label Keywords as a list even when exactly
one distinct keyword value exists, represents any label not flagged
multi-valued that has exactly one distinct value as a scalar, and in
general only Keywords entries may be lists of at most one element while
scalar entries never carry the Keywords label. -/
theorem to_dict_multiplicity_rule (lib : Exiv2Lib) :
    (∀ rk x f n, labelOf lib rk = "Keywords" →
      to_dict lib ⟨[⟨rk, x⟩], f, n⟩ = ⟨some [("Keywords", .list [x])]⟩) ∧
    (∀ rk x f n, labelOf lib rk ≠ "Keywords" →
      to_dict lib ⟨[⟨rk, x⟩], f, n⟩ =
        ⟨some [(labelOf lib rk, .scalar x)]⟩) ∧
    (∀ mem L v, (L, v) ∈ exportIptc lib mem →
      (L = "Keywords" → ∃ xs, v = .list xs) ∧
      (∀ xs, v = .list xs → L = "Keywords" ∨ 1 < xs.length)) := by
  refine ⟨?_, ?_, ?_⟩
  · intro rk x f n hL
    have hg := exportIptc_group lib rk x []
    have hc := collectRun_group_cons rk x []
    simp only [List.map_nil] at hg hc
    show PyDoc.mk (some (exportIptc lib [⟨rk, x⟩])) = _
    rw [hg]
    simp [exportEntry, hc, dedupFirst_single, hL]
  · intro rk x f n hL
    have hg := exportIptc_group lib rk x []
    have hc := collectRun_group_cons rk x []
    simp only [List.map_nil] at hg hc
    have hne : (labelOf lib rk == "Keywords") = false :=
      beq_eq_false_iff_ne.mpr hL
    show PyDoc.mk (some (exportIptc lib [⟨rk, x⟩])) = _
    rw [hg]
    simp [exportEntry, hc, dedupFirst_single, hne]
  · intro mem L v hp
    rcases exportFold_mem lib mem (uniqueSortedKeys mem) [] (L, v) hp with
      h | ⟨k, hk⟩
    · cases h
    · exact exportEntry_shape lib mem k L v hk

/-- C4 witness. -/
theorem to_dict_multiplicity_rule_witness :
    to_dict libTest ⟨[⟨"Iptc.Application2.Keywords", "x"⟩], [], 0⟩ =
        ⟨some [("Keywords", .list ["x"])]⟩ ∧
    to_dict libTest ⟨[⟨"Iptc.Application2.City", "Paris"⟩], [], 0⟩ =
        ⟨some [("City", .scalar "Paris")]⟩ :=
  ⟨(to_dict_multiplicity_rule libTest).1 "Iptc.Application2.Keywords" "x"
      [] 0 (by decide),
   (to_dict_multiplicity_rule libTest).2.1 "Iptc.Application2.City" "Paris"
      [] 0 (by decide)⟩

/-- C5: when three records share one raw identifier with values A, B, A in
source order, to_dict exports the list with the duplicate removed, the
source order preserved and the first occurrence kept. -/
theorem to_dict_dedup_source_order (lib : Exiv2Lib) (rk A B : String)
    (f : IptcData) (n : Nat) (hAB : A ≠ B) :
    to_dict lib ⟨[⟨rk, A⟩, ⟨rk, B⟩, ⟨rk, A⟩], f, n⟩ =
      ⟨some [(labelOf lib rk, .list [A, B])]⟩ := by
  have hg := exportIptc_group lib rk A [B, A]
  have hc := collectRun_group_cons rk A [B, A]
  simp only [List.map_cons, List.map_nil] at hg hc
  have hd := dedupFirst_aba A B hAB
  show PyDoc.mk (some (exportIptc lib [⟨rk, A⟩, ⟨rk, B⟩, ⟨rk, A⟩])) = _
  rw [hg]
  simp [exportEntry, hc, hd]

theorem processPair_unknown (lib : Exiv2Lib) (data : IptcData)
    (p : String × PyVal) (hr : lookupRaw p.1 = none) :
    processPair lib data p = .ok data := by
  simp [processPair, hr]

theorem processPair_known_ok (lib : Exiv2Lib) (data : IptcData)
    (p : String × PyVal) (r : String) (hr : lookupRaw p.1 = some r)
    (hv : lib.validKey r = true) :
    ∃ d1, processPair lib data p = .ok d1 := by
  cases hp2 : p.2 with
  | scalar s =>
    exact ⟨eraseMatchingRun r data ++ [⟨r, s⟩],
      by simp [processPair, hr, hv, hp2]⟩
  | list xs =>
    exact ⟨eraseMatchingRun r data ++ xs.map (fun x => ⟨r, x⟩),
      by simp [processPair, hr, hv, hp2]⟩

theorem processPairs_filter_known (lib : Exiv2Lib) (data : IptcData)
    (sec : List (String × PyVal))
    (hval : ∀ p ∈ sec, ∀ r, lookupRaw p.1 = some r →
      lib.validKey r = true) :
    ∃ d2, processPairs lib data sec = .ok d2 ∧
      processPairs lib data
        (sec.filter (fun p => (lookupRaw p.1).isSome)) = .ok d2 := by
  induction sec generalizing data with
  | nil => exact ⟨data, rfl, rfl⟩
  | cons p rest ih =>
    have hval' : ∀ q ∈ rest, ∀ r, lookupRaw q.1 = some r →
        lib.validKey r = true :=
      fun q hq => hval q (List.mem_cons_of_mem _ hq)
    cases hr : lookupRaw p.1 with
    | none =>
      obtain ⟨d2, h1, h2⟩ := ih data hval'
      refine ⟨d2, ?_, ?_⟩
      · simp only [processPairs, processPair_unknown lib data p hr]
        exact h1
      · simpa [List.filter_cons, hr] using h2
    | some r =>
      have hv := hval p (List.mem_cons_self p rest) r hr
      obtain ⟨d1, hd1⟩ := processPair_known_ok lib data p r hr hv
      obtain ⟨d2, h1, h2⟩ := ih d1 hval'
      refine ⟨d2, ?_, ?_⟩
      · simp only [processPairs, hd1]
        exact h1
      · simp only [List.filter_cons, hr, Option.isSome_some, if_true]
        simp only [processPairs, hd1]
        exact h2

/-- C7: from_dict on a section mixing labels recognized and not recognized
by the dictionary succeeds without error (the raw keys of the dictionary
being accepted by the IptcKey constructor), and produces exactly the
adapter obtained from the section with the unrecognized labels removed:
every unrecognized label is skipped silently before any deletion or
addition of records, and every recognized pair is applied. -/
theorem from_dict_skips_unknown_labels (lib : Exiv2Lib) (a : Adapter)
    (sec : List (String × PyVal))
    (hval : ∀ p ∈ sec, ∀ r, lookupRaw p.1 = some r →
      lib.validKey r = true) :
    ∃ a2, from_dict lib a ⟨some sec⟩ = .ok a2 ∧
      from_dict lib a
        ⟨some (sec.filter (fun p => (lookupRaw p.1).isSome))⟩ = .ok a2 := by
  obtain ⟨d2, h1, h2⟩ := processPairs_filter_known lib a.mem sec hval
  exact ⟨⟨d2, d2, a.flushes + 1⟩, by simp [from_dict, h1],
    by simp [from_dict, h2]⟩

/-- C7 witness: the document with the unknown label NotARealLabel and the
recognized label Caption is imported without error, and equals the import
of the document holding Caption alone. -/
theorem from_dict_skips_unknown_labels_witness :
    ∃ a2, from_dict libTest ⟨[], [], 0⟩
        ⟨some [("Caption", .scalar "y"), ("NotARealLabel", .scalar "x")]⟩
        = .ok a2 ∧
      from_dict libTest ⟨[], [], 0⟩
        ⟨some ([("Caption", PyVal.scalar "y"),
          ("NotARealLabel", PyVal.scalar "x")].filter
            (fun p => (lookupRaw p.1).isSome))⟩ = .ok a2 :=
  from_dict_skips_unknown_labels libTest ⟨[], [], 0⟩
    [("Caption", .scalar "y"), ("NotARealLabel", .scalar "x")]
    (fun _ _ _ _ => rfl)

/-- C5 witness. -/
theorem to_dict_dedup_source_order_witness :
    to_dict libTest ⟨[⟨"Iptc.Application2.Keywords", "alpha"⟩,
        ⟨"Iptc.Application2.Keywords", "beta"⟩,
        ⟨"Iptc.Application2.Keywords", "alpha"⟩], [], 0⟩ =
      ⟨some [("Keywords", .list ["alpha", "beta"])]⟩ :=
  to_dict_dedup_source_order libTest "Iptc.Application2.Keywords"
    "alpha" "beta" [] 0 (by decide)

/-- C10 witness. -/
theorem get_after_set_roundtrip_witness :
    ∃ a2, setIptcTag libTest ⟨[⟨"k", "old"⟩], [⟨"k", "old"⟩], 0⟩ "k" "v"
        = .ok a2 ∧
      getIptcTag libTest a2 "k" = .ok "v" ∧
      a2.mem.filter (fun d => d.key == "k") = [⟨"k", "v"⟩] :=
  get_after_set_roundtrip libTest ⟨[⟨"k", "old"⟩], [⟨"k", "old"⟩], 0⟩
    "k" "v" rfl (List.pairwise_singleton _ _)

theorem contains_iff_mem (s : List String) (v : String) :
    s.contains v = true ↔ v ∈ s :=
  List.elem_iff

theorem lookup_mem_pairs (l : List (String × String)) (L r : String)
    (h : l.lookup L = some r) : (L, r) ∈ l := by
  induction l with
  | nil => cases h
  | cons q rest ih =>
    obtain ⟨k0, v0⟩ := q
    rw [List.lookup_cons] at h
    revert h
    cases hL : L == k0 with
    | true =>
      intro h
      injection h with h
      subst h
      rw [beq_iff_eq.mp hL]
      exact List.mem_cons_self _ _
    | false =>
      intro h
      exact List.mem_cons_of_mem _ (ih h)

theorem humanToRawKey_snd_nodup : (humanToRawKey.map Prod.snd).Nodup := by
  decide

theorem lookupRaw_inj (L1 L2 r : String) (h1 : lookupRaw L1 = some r)
    (h2 : lookupRaw L2 = some r) : L1 = L2 := by
  have m1 := lookup_mem_pairs humanToRawKey L1 r h1
  have m2 := lookup_mem_pairs humanToRawKey L2 r h2
  have := List.inj_on_of_nodup_map humanToRawKey_snd_nodup m1 m2 rfl
  exact congrArg Prod.fst this

theorem mem_rawsOf (sec : List (String × PyVal)) (r : String) :
    r ∈ rawsOf sec ↔ ∃ p ∈ sec, lookupRaw p.1 = some r := by
  simp [rawsOf, List.mem_filterMap]

theorem rawsOf_nodup (sec : List (String × PyVal))
    (hlbl : (sec.map Prod.fst).Nodup)
    (hrec : ∀ p ∈ sec, (lookupRaw p.1).isSome) : (rawsOf sec).Nodup := by
  induction sec with
  | nil => exact List.nodup_nil
  | cons p rest ih =>
    rw [List.map_cons] at hlbl
    have hlbl' := List.nodup_cons.mp hlbl
    obtain ⟨r, hr⟩ := Option.isSome_iff_exists.mp
      (hrec p (List.mem_cons_self p rest))
    have hcons : rawsOf (p :: rest) = r :: rawsOf rest := by
      simp [rawsOf, List.filterMap_cons, hr]
    rw [hcons]
    refine List.nodup_cons.mpr ⟨?_, ih hlbl'.2
      (fun q hq => hrec q (List.mem_cons_of_mem _ hq))⟩
    intro hcon
    obtain ⟨q, hq, hqr⟩ := (mem_rawsOf rest r).mp hcon
    have heq : q.1 = p.1 := lookupRaw_inj q.1 p.1 r hqr hr
    exact hlbl'.1 (heq ▸ List.mem_map.mpr ⟨q, hq, rfl⟩)

theorem rawsOf_append (s1 s2 : List (String × PyVal)) :
    rawsOf (s1 ++ s2) = rawsOf s1 ++ rawsOf s2 := by
  simp [rawsOf, List.filterMap_append]

theorem groupsOf_append (s1 s2 : List (String × PyVal)) :
    groupsOf (s1 ++ s2) = groupsOf s1 ++ groupsOf s2 := by
  induction s1 with
  | nil => rfl
  | cons p rest ih => simp [groupsOf, ih, List.append_assoc]

theorem groupOf_key (r : String) (v : PyVal) (d : Iptcdatum)
    (hd : d ∈ groupOf r v) : d.key = r := by
  obtain ⟨s, _, rfl⟩ := List.mem_map.mp hd
  rfl

theorem groupOf_values (r : String) (v : PyVal) :
    (groupOf r v).map Iptcdatum.value = elemsOf v := by
  simp [groupOf, List.map_map,
    show (Iptcdatum.value ∘ fun s => (⟨r, s⟩ : Iptcdatum)) = id from rfl]

theorem key_mem_groupsOf (sec : List (String × PyVal)) (d : Iptcdatum)
    (hd : d ∈ groupsOf sec) : d.key ∈ rawsOf sec := by
  induction sec with
  | nil => cases hd
  | cons p rest ih =>
    rw [groupsOf] at hd
    rcases List.mem_append.mp hd with h | h
    · revert h
      cases hr : lookupRaw p.1 with
      | none => intro h; cases h
      | some r =>
        intro h
        have hcons : rawsOf (p :: rest) = r :: rawsOf rest := by
          simp [rawsOf, List.filterMap_cons, hr]
        rw [hcons, groupOf_key r p.2 d h]
        exact List.mem_cons_self _ _
    · have hmem := ih h
      cases hr : lookupRaw p.1 with
      | none =>
        have hcons : rawsOf (p :: rest) = rawsOf rest := by
          simp [rawsOf, List.filterMap_cons, hr]
        rw [hcons]
        exact hmem
      | some r =>
        have hcons : rawsOf (p :: rest) = r :: rawsOf rest := by
          simp [rawsOf, List.filterMap_cons, hr]
        rw [hcons]
        exact List.mem_cons_of_mem _ hmem

theorem mem_dedupFirstAux (seen l : List String) (a : String) :
    a ∈ dedupFirstAux seen l ↔ a ∈ l ∧ a ∉ seen := by
  induction l generalizing seen with
  | nil => simp [dedupFirstAux]
  | cons v rest ih =>
    cases hc : seen.contains v with
    | true =>
      have hv : v ∈ seen := (contains_iff_mem seen v).mp hc
      rw [dedupFirstAux, hc]
      simp only [if_true, ih, List.mem_cons]
      constructor
      · rintro ⟨h1, h2⟩
        exact ⟨Or.inr h1, h2⟩
      · rintro ⟨h1 | h1, h2⟩
        · exact absurd (h1 ▸ hv) h2
        · exact ⟨h1, h2⟩
    | false =>
      have hv : v ∉ seen := fun hh => by
        have hc2 := (contains_iff_mem seen v).mpr hh
        rw [hc] at hc2
        cases hc2
      rw [dedupFirstAux, hc]
      simp only [Bool.false_eq_true, if_false, List.mem_cons, ih]
      by_cases hav : a = v
      · subst hav
        simp [hv]
      · simp [hav]

theorem mem_dedupFirst (l : List String) (a : String) :
    a ∈ dedupFirst l ↔ a ∈ l := by
  rw [dedupFirst, mem_dedupFirstAux]
  simp

theorem dedupFirstAux_nodup (seen l : List String) :
    (dedupFirstAux seen l).Nodup := by
  induction l generalizing seen with
  | nil => exact List.nodup_nil
  | cons v rest ih =>
    cases hc : seen.contains v with
    | true =>
      rw [dedupFirstAux, hc]
      simpa using ih seen
    | false =>
      rw [dedupFirstAux, hc]
      simp only [Bool.false_eq_true, if_false]
      refine List.nodup_cons.mpr ⟨?_, ih (v :: seen)⟩
      intro hcon
      exact ((mem_dedupFirstAux (v :: seen) rest v).mp hcon).2
        (List.mem_cons_self v seen)

theorem dedupFirst_nodup (l : List String) : (dedupFirst l).Nodup :=
  dedupFirstAux_nodup [] l

theorem dedupFirst_ne_nil (l : List String) (h : l ≠ []) :
    dedupFirst l ≠ [] := by
  cases l with
  | nil => exact absurd rfl h
  | cons v rest =>
    rw [dedupFirst, dedupFirstAux]
    simp

theorem mem_setInsert (s : List String) (k x : String) :
    x ∈ setInsert s k ↔ x = k ∨ x ∈ s := by
  induction s with
  | nil => simp [setInsert]
  | cons y rest ih =>
    rw [setInsert]
    by_cases h1 : k = y
    · simp only [beq_iff_eq.mpr h1, if_true]
      constructor
      · exact fun h => Or.inr h
      · rintro (h | h)
        · rw [h, h1]; exact List.mem_cons_self _ _
        · exact h
    · rw [if_neg (by simpa using h1)]
      by_cases h2 : k < y
      · simp [h2, List.mem_cons, or_assoc, or_comm, or_left_comm]
      · simp only [h2, if_false, List.mem_cons, ih]
        tauto

theorem setInsert_sorted (s : List String) (k : String)
    (hs : List.Pairwise (fun a b => a < b) s) :
    List.Pairwise (fun a b => a < b) (setInsert s k) := by
  induction s with
  | nil => simp [setInsert]
  | cons y rest ih =>
    have hp := List.pairwise_cons.mp hs
    rw [setInsert]
    by_cases h1 : k = y
    · rw [if_pos (by simpa using h1)]
      exact hs
    · rw [if_neg (by simpa using h1)]
      by_cases h2 : k < y
      · rw [if_pos h2]
        refine List.pairwise_cons.mpr ⟨?_, hs⟩
        intro z hz
        rcases List.mem_cons.mp hz with h | h
        · exact h ▸ h2
        · exact lt_trans h2 (hp.1 z h)
      · rw [if_neg h2]
        refine List.pairwise_cons.mpr ⟨?_, ih hp.2⟩
        intro z hz
        rcases (mem_setInsert rest k z).mp hz with h | h
        · subst h
          exact lt_of_le_of_ne (not_lt.mp h2) (Ne.symm h1)
        · exact hp.1 z h

theorem mem_insertKeys (l : IptcData) (s : List String) (x : String) :
    x ∈ insertKeys s l ↔ x ∈ s ∨ ∃ d ∈ l, d.key = x := by
  induction l generalizing s with
  | nil => simp [insertKeys]
  | cons d rest ih =>
    rw [insertKeys, ih, mem_setInsert]
    constructor
    · rintro ((h | h) | ⟨e, he, hx⟩)
      · exact Or.inr ⟨d, List.mem_cons_self _ _, h.symm⟩
      · exact Or.inl h
      · exact Or.inr ⟨e, List.mem_cons_of_mem _ he, hx⟩
    · rintro (h | ⟨e, he, hx⟩)
      · exact Or.inl (Or.inr h)
      · rcases List.mem_cons.mp he with h | h
        · exact Or.inl (Or.inl (by rw [← hx, h]))
        · exact Or.inr ⟨e, h, hx⟩

theorem insertKeys_sorted (l : IptcData) (s : List String)
    (hs : List.Pairwise (fun a b => a < b) s) :
    List.Pairwise (fun a b => a < b) (insertKeys s l) := by
  induction l generalizing s with
  | nil => exact hs
  | cons d rest ih => exact ih _ (setInsert_sorted s d.key hs)

theorem mem_uniqueSortedKeys (l : IptcData) (x : String) :
    x ∈ uniqueSortedKeys l ↔ ∃ d ∈ l, d.key = x := by
  rw [uniqueSortedKeys, mem_insertKeys]
  simp

theorem uniqueSortedKeys_nodup (l : IptcData) :
    (uniqueSortedKeys l).Nodup :=
  (insertKeys_sorted l [] List.Pairwise.nil).imp ne_of_lt

theorem lookup_mapInsert_self (m : List (String × PyVal)) (k : String)
    (v : PyVal) : (mapInsert m k v).lookup k = some v := by
  induction m with
  | nil => simp [mapInsert, List.lookup_cons]
  | cons q rest ih =>
    obtain ⟨k0, v0⟩ := q
    rw [mapInsert]
    by_cases h1 : k = k0
    · rw [if_pos (by simpa using h1)]
      simp [List.lookup_cons]
    · rw [if_neg (by simpa using h1)]
      by_cases h2 : k < k0
      · rw [if_pos h2]
        simp [List.lookup_cons]
      · rw [if_neg h2]
        rw [List.lookup_cons]
        simp only [beq_eq_false_iff_ne.mpr h1]
        exact ih

theorem lookup_mapInsert_ne (m : List (String × PyVal)) (k : String)
    (v : PyVal) (L : String) (h : L ≠ k) :
    (mapInsert m k v).lookup L = m.lookup L := by
  have hLk : (L == k) = false := beq_eq_false_iff_ne.mpr h
  induction m with
  | nil => simp [mapInsert, List.lookup_cons, hLk]
  | cons q rest ih =>
    obtain ⟨k0, v0⟩ := q
    rw [mapInsert]
    by_cases h1 : k = k0
    · rw [if_pos (by simpa using h1)]
      rw [List.lookup_cons, List.lookup_cons, hLk,
        show (L == k0) = false from h1 ▸ hLk]
    · rw [if_neg (by simpa using h1)]
      by_cases h2 : k < k0
      · rw [if_pos h2]
        rw [List.lookup_cons, hLk]
      · rw [if_neg h2]
        rw [List.lookup_cons, List.lookup_cons]
        cases hL0 : L == k0 with
        | true => rfl
        | false => exact ih

theorem entryLabel_cases (lib : Exiv2Lib) (mem : IptcData) (k : String) :
    entryLabel lib mem k = none ∨
      entryLabel lib mem k = some (labelOf lib k) := by
  rw [entryLabel, exportEntry]
  split
  · exact Or.inr rfl
  · split
    · exact Or.inl rfl
    · exact Or.inr rfl

theorem exportFold_lookup_absent (lib : Exiv2Lib) (mem : IptcData)
    (ks : List String) (m : List (String × PyVal)) (L : String)
    (h : ∀ k ∈ ks, entryLabel lib mem k ≠ some L) :
    (exportFold lib mem m ks).lookup L = m.lookup L := by
  induction ks generalizing m with
  | nil => rfl
  | cons k ks ih =>
    rw [exportFold]
    rw [ih _ (fun q hq => h q (List.mem_cons_of_mem _ hq))]
    rw [exportStep]
    cases he : exportEntry lib mem k with
    | none => rfl
    | some q =>
      obtain ⟨L2, v2⟩ := q
      have hL : L2 ≠ L := by
        intro hh
        exact h k (List.mem_cons_self _ _) (by simp [entryLabel, he, hh])
      exact lookup_mapInsert_ne m L2 v2 L (Ne.symm hL)

theorem exportFold_lookup_unique (lib : Exiv2Lib) (mem : IptcData)
    (ks : List String) (m : List (String × PyVal)) (L : String)
    (v : PyVal) (k0 : String) (hk : k0 ∈ ks) (hnd : ks.Nodup)
    (he : exportEntry lib mem k0 = some (L, v))
    (hothers : ∀ k ∈ ks, k ≠ k0 → entryLabel lib mem k ≠ some L) :
    (exportFold lib mem m ks).lookup L = some v := by
  induction ks generalizing m with
  | nil => cases hk
  | cons k ks ih =>
    have hnd' := List.nodup_cons.mp hnd
    by_cases hkk : k = k0
    · subst hkk
      rw [exportFold, exportStep, he]
      rw [exportFold_lookup_absent lib mem ks _ L
        (fun q hq => hothers q (List.mem_cons_of_mem _ hq)
          (fun hh => hnd'.1 (hh ▸ hq)))]
      exact lookup_mapInsert_self m L v
    · have hk0 : k0 ∈ ks := by
        rcases List.mem_cons.mp hk with h | h
        · exact absurd h.symm hkk
        · exact h
      rw [exportFold]
      exact ih (exportStep lib mem m k) hk0 hnd'.2
        (fun q hq => hothers q (List.mem_cons_of_mem _ hq))

theorem processPair_known_eq (lib : Exiv2Lib) (data : IptcData)
    (p : String × PyVal) (r : String) (hr : lookupRaw p.1 = some r)
    (hv : lib.validKey r = true) :
    processPair lib data p =
      .ok (eraseMatchingRun r data ++ groupOf r p.2) := by
  cases hp2 : p.2 with
  | scalar s => simp [processPair, hr, hv, hp2, groupOf, elemsOf]
  | list xs => simp [processPair, hr, hv, hp2, groupOf, elemsOf]

theorem processPairs_sorted (lib : Exiv2Lib) (sec : List (String × PyVal))
    (base tail : IptcData)
    (hval : ∀ p ∈ sec, ∀ r, lookupRaw p.1 = some r →
      lib.validKey r = true)
    (hnd : (rawsOf sec).Nodup)
    (hs : keysSorted base)
    (htail : ∀ d ∈ tail, d.key ∉ rawsOf sec) :
    processPairs lib (base ++ tail) sec =
      .ok (base.filter (fun d => !((rawsOf sec).contains d.key)) ++ tail
        ++ groupsOf sec) := by
  induction sec generalizing base tail with
  | nil =>
    show Except.ok (base ++ tail) = _
    rw [show (fun d : Iptcdatum => !((rawsOf []).contains d.key)) =
        (fun _ : Iptcdatum => true) from funext (fun d => rfl),
      List.filter_true]
    rw [show groupsOf [] = [] from rfl, List.append_nil]
  | cons p rest ih =>
    have hval' : ∀ q ∈ rest, ∀ r, lookupRaw q.1 = some r →
        lib.validKey r = true :=
      fun q hq => hval q (List.mem_cons_of_mem _ hq)
    cases hr : lookupRaw p.1 with
    | none =>
      have hraws : rawsOf (p :: rest) = rawsOf rest := by
        simp [rawsOf, List.filterMap_cons, hr]
      have hgr : groupsOf (p :: rest) = groupsOf rest := by
        simp [groupsOf, hr]
      rw [processPairs, processPair_unknown lib _ p hr, hraws, hgr]
      rw [hraws] at hnd
      exact ih base tail hval' hnd hs
        (fun d hd => by rw [← hraws]; exact htail d hd)
    | some r =>
      have hv := hval p (List.mem_cons_self p rest) r hr
      have hraws : rawsOf (p :: rest) = r :: rawsOf rest := by
        simp [rawsOf, List.filterMap_cons, hr]
      have hgr : groupsOf (p :: rest) = groupOf r p.2 ++ groupsOf rest := by
        simp [groupsOf, hr]
      have hrmem : r ∈ rawsOf (p :: rest) := by
        rw [hraws]; exact List.mem_cons_self _ _
      have htailr : ∀ d ∈ tail, d.key ≠ r :=
        fun d hd hh => htail d hd (hh ▸ hrmem)
      have herase : eraseMatchingRun r (base ++ tail) =
          base.filter (fun d => !(d.key == r)) ++ tail :=
        eraseMatchingRun_sorted_append r base tail hs htailr
      rw [processPairs, processPair_known_eq lib _ p r hr hv, herase,
        List.append_assoc]
      change processPairs lib
        (base.filter (fun d => !(d.key == r)) ++ (tail ++ groupOf r p.2))
        rest = _
      rw [hraws] at hnd
      have hnd2 := List.nodup_cons.mp hnd
      have htail' : ∀ d ∈ tail ++ groupOf r p.2,
          d.key ∉ rawsOf rest := by
        intro d hd
        rcases List.mem_append.mp hd with h | h
        · intro hh
          exact htail d h (by rw [hraws]; exact List.mem_cons_of_mem _ hh)
        · rw [groupOf_key r p.2 d h]
          exact hnd2.1
      rw [ih (base.filter (fun d => !(d.key == r)))
        (tail ++ groupOf r p.2) hval' hnd2.2
        (List.Pairwise.filter _ hs) htail']
      congr 1
      rw [hraws, hgr, List.filter_filter]
      rw [show (fun d : Iptcdatum =>
            (!((rawsOf rest).contains d.key)) && !(d.key == r)) =
          (fun d : Iptcdatum => !((r :: rawsOf rest).contains d.key)) from
        funext (fun d => by
          rw [List.contains_cons]
          cases hb1 : (d.key == r) <;>
            cases hb2 : ((rawsOf rest).contains d.key) <;> rfl)]
      simp [List.append_assoc]

theorem from_dict_sorted_eq (lib : Exiv2Lib) (a : Adapter)
    (sec : List (String × PyVal))
    (hval : ∀ p ∈ sec, ∀ r, lookupRaw p.1 = some r →
      lib.validKey r = true)
    (hnd : (rawsOf sec).Nodup)
    (hs : keysSorted a.mem) :
    from_dict lib a ⟨some sec⟩ =
      .ok ⟨a.mem.filter (fun d => !((rawsOf sec).contains d.key))
            ++ groupsOf sec,
          a.mem.filter (fun d => !((rawsOf sec).contains d.key))
            ++ groupsOf sec,
          a.flushes + 1⟩ := by
  have h := processPairs_sorted lib sec a.mem [] hval hnd hs
    (fun d hd => by cases hd)
  rw [List.append_nil, List.append_nil] at h
  show (match processPairs lib a.mem sec with
    | Except.error e => Except.error e
    | Except.ok mem =>
      Except.ok (Adapter.mk mem mem (a.flushes + 1))) = _
  rw [h]

theorem exportIptc_lookup_of_unique_label (lib : Exiv2Lib) (mem : IptcData)
    (r : String) (w : PyVal) (L : String)
    (hmem : ∃ d ∈ mem, d.key = r)
    (he : exportEntry lib mem r = some (L, w))
    (hothers : ∀ k, (∃ d ∈ mem, d.key = k) → k ≠ r →
      entryLabel lib mem k ≠ some L) :
    (exportIptc lib mem).lookup L = some w := by
  rw [exportIptc]
  exact exportFold_lookup_unique lib mem _ [] L w r
    ((mem_uniqueSortedKeys mem r).mpr hmem) (uniqueSortedKeys_nodup mem) he
    (fun k hk => hothers k ((mem_uniqueSortedKeys mem k).mp hk))

/-- C1 (amended): on an identifier-ordered store, for a document whose
iptc section holds distinct labels recognized by the dictionary with
nonempty values, where the tag-naming facility maps each resolved raw key
back to its label and the raw keys are accepted by the IptcKey
constructor, and where no residual record of the store exports a label of
the document, importing the document and then exporting yields, for every
label of the document, exactly the distinct elements of its value in
first-occurrence order — as a list when more than one distinct element
remains or the label is flagged multi-valued, and as a scalar otherwise. -/
theorem from_dict_to_dict_roundtrip (lib : Exiv2Lib) (a : Adapter)
    (sec : List (String × PyVal))
    (hs : keysSorted a.mem)
    (hlbl : (sec.map Prod.fst).Nodup)
    (hrec : ∀ p ∈ sec, (lookupRaw p.1).isSome)
    (hcoh : ∀ p ∈ sec, ∀ r, lookupRaw p.1 = some r →
      lib.validKey r = true ∧ labelOf lib r = p.1)
    (hne : ∀ p ∈ sec, elemsOf p.2 ≠ [])
    (hnocol : ∀ d ∈ a.mem, d.key ∉ rawsOf sec →
      labelOf lib d.key ∉ sec.map Prod.fst) :
    ∃ a2, from_dict lib a ⟨some sec⟩ = .ok a2 ∧
      ∀ p ∈ sec, ∃ w,
        (exportIptc lib a2.mem).lookup p.1 = some w ∧
        elemsOf w = dedupFirst (elemsOf p.2) ∧
        (∀ s, s ∈ elemsOf w ↔ s ∈ elemsOf p.2) ∧
        (elemsOf w).Nodup ∧
        ((∃ xs, w = PyVal.list xs) ↔
          (1 < (dedupFirst (elemsOf p.2)).length ∨ p.1 = "Keywords")) := by
  have hval : ∀ p ∈ sec, ∀ r, lookupRaw p.1 = some r →
      lib.validKey r = true :=
    fun p hp r hr => (hcoh p hp r hr).1
  have hndraws := rawsOf_nodup sec hlbl hrec
  refine ⟨⟨a.mem.filter (fun d => !((rawsOf sec).contains d.key))
      ++ groupsOf sec,
    a.mem.filter (fun d => !((rawsOf sec).contains d.key)) ++ groupsOf sec,
    a.flushes + 1⟩,
    from_dict_sorted_eq lib a sec hval hndraws hs, ?_⟩
  intro p hp
  obtain ⟨r, hr⟩ := Option.isSome_iff_exists.mp (hrec p hp)
  obtain ⟨hvr, hlab⟩ := hcoh p hp r hr
  obtain ⟨s1, s2, hsec⟩ := List.append_of_mem hp
  have hraws2 : rawsOf sec = rawsOf s1 ++ r :: rawsOf s2 := by
    rw [hsec, rawsOf_append]
    congr 1
    simp [rawsOf, List.filterMap_cons, hr]
  have hgrps : groupsOf sec =
      groupsOf s1 ++ (groupOf r p.2 ++ groupsOf s2) := by
    rw [hsec, groupsOf_append]
    congr 1
    simp [groupsOf, hr]
  have hnd3 : (rawsOf s1 ++ r :: rawsOf s2).Nodup := hraws2 ▸ hndraws
  have hnd4 := List.nodup_append.mp hnd3
  have hr_not_s1 : r ∉ rawsOf s1 :=
    fun hh => hnd4.2.2 hh (List.mem_cons_self _ _)
  have hr_not_s2 : r ∉ rawsOf s2 := (List.nodup_cons.mp hnd4.2.1).1
  have hrmem : r ∈ rawsOf sec := by
    rw [hraws2]
    exact List.mem_append.mpr (Or.inr (List.mem_cons_self _ _))
  have hclean1 : ∀ d ∈ a.mem.filter
      (fun d => !((rawsOf sec).contains d.key)) ++ groupsOf s1,
      d.key ≠ r := by
    intro d hd
    rcases List.mem_append.mp hd with h | h
    · have h2 := (List.mem_filter.mp h).2
      intro hh
      rw [hh, (contains_iff_mem _ _).mpr hrmem] at h2
      cases h2
    · intro hh
      exact hr_not_s1 (hh ▸ key_mem_groupsOf s1 d h)
  have hcr : collectRun r
      (a.mem.filter (fun d => !((rawsOf sec).contains d.key))
        ++ groupsOf sec) = elemsOf p.2 := by
    rw [hgrps,
      show a.mem.filter (fun d => !((rawsOf sec).contains d.key)) ++
          (groupsOf s1 ++ (groupOf r p.2 ++ groupsOf s2)) =
        (a.mem.filter (fun d => !((rawsOf sec).contains d.key)) ++
          groupsOf s1) ++ (groupOf r p.2 ++ groupsOf s2) from by
        simp [List.append_assoc]]
    rw [collectRun_append_left r _ _ hclean1]
    rw [collectRun_run r (groupOf r p.2) (groupsOf s2)
      (fun d hd => groupOf_key r p.2 d hd)
      (fun d hd hh => hr_not_s2 (hh ▸ key_mem_groupsOf s2 d hd))]
    exact groupOf_values r p.2
  have hune : dedupFirst (elemsOf p.2) ≠ [] :=
    dedupFirst_ne_nil _ (hne p hp)
  have hmemr : ∃ d ∈ a.mem.filter
      (fun d => !((rawsOf sec).contains d.key)) ++ groupsOf sec,
      d.key = r := by
    cases helems : elemsOf p.2 with
    | nil => exact absurd helems (hne p hp)
    | cons e es =>
      refine ⟨⟨r, e⟩, ?_, rfl⟩
      refine List.mem_append.mpr (Or.inr ?_)
      rw [hgrps]
      refine List.mem_append.mpr (Or.inr (List.mem_append.mpr (Or.inl ?_)))
      rw [groupOf, helems]
      exact List.mem_map.mpr ⟨e, List.mem_cons_self _ _, rfl⟩
  have hoth : ∀ k, (∃ d ∈ a.mem.filter
      (fun d => !((rawsOf sec).contains d.key)) ++ groupsOf sec,
      d.key = k) → k ≠ r →
      entryLabel lib (a.mem.filter
        (fun d => !((rawsOf sec).contains d.key)) ++ groupsOf sec) k ≠
        some p.1 := by
    intro k hk hkr hcon
    rcases entryLabel_cases lib _ k with h0 | h0
    · rw [h0] at hcon
      cases hcon
    · rw [h0] at hcon
      injection hcon with hcon
      obtain ⟨d, hd, hdk⟩ := hk
      rcases List.mem_append.mp hd with h | h
      · have h2 := List.mem_filter.mp h
        have hnotin : d.key ∉ rawsOf sec := by
          intro hh
          have h3 := h2.2
          rw [(contains_iff_mem _ _).mpr hh] at h3
          cases h3
        refine hnocol d h2.1 hnotin ?_
        rw [hdk, hcon]
        exact List.mem_map.mpr ⟨p, hp, rfl⟩
      · have hkraws : k ∈ rawsOf sec := hdk ▸ key_mem_groupsOf sec d h
        obtain ⟨q, hq, hqr⟩ := (mem_rawsOf sec k).mp hkraws
        have hlabq := (hcoh q hq k hqr).2
        have hq1 : q.1 = p.1 := by rw [← hlabq, hcon]
        have hqp : q = p := List.inj_on_of_nodup_map hlbl hq hp hq1
        rw [hqp, hr] at hqr
        injection hqr with hqr
        exact hkr hqr.symm
  by_cases hcond : 1 < (dedupFirst (elemsOf p.2)).length ∨ p.1 = "Keywords"
  · have he : exportEntry lib
        (a.mem.filter (fun d => !((rawsOf sec).contains d.key))
          ++ groupsOf sec) r =
        some (p.1, PyVal.list (dedupFirst (elemsOf p.2))) := by
      rw [exportEntry, hcr, hlab]
      rw [if_pos ?_]
      rcases hcond with h | h
      · simp [h]
      · simp [h]
    refine ⟨PyVal.list (dedupFirst (elemsOf p.2)),
      exportIptc_lookup_of_unique_label lib _ r _ p.1 hmemr he hoth,
      rfl, ?_, ?_, ?_⟩
    · intro s
      exact mem_dedupFirst (elemsOf p.2) s
    · exact dedupFirst_nodup _
    · exact ⟨fun _ => hcond, fun _ => ⟨_, rfl⟩⟩
  · push_neg at hcond
    obtain ⟨hlen, hkw⟩ := hcond
    obtain ⟨u, hu2⟩ : ∃ u, dedupFirst (elemsOf p.2) = [u] := by
      cases hu3 : dedupFirst (elemsOf p.2) with
      | nil => exact absurd hu3 hune
      | cons u us =>
        cases us with
        | nil => exact ⟨u, rfl⟩
        | cons u2 us2 =>
          rw [hu3] at hlen
          simp at hlen
    have he : exportEntry lib
        (a.mem.filter (fun d => !((rawsOf sec).contains d.key))
          ++ groupsOf sec) r = some (p.1, PyVal.scalar u) := by
      rw [exportEntry, hcr, hlab, hu2]
      rw [if_neg ?_]
      simp [beq_eq_false_iff_ne.mpr hkw]
    refine ⟨PyVal.scalar u,
      exportIptc_lookup_of_unique_label lib _ r _ p.1 hmemr he hoth,
      by rw [hu2]; rfl, ?_, by simp [elemsOf], ?_⟩
    · intro s
      rw [show elemsOf (PyVal.scalar u) = [u] from rfl, ← hu2]
      exact mem_dedupFirst (elemsOf p.2) s
    · constructor
      · rintro ⟨xs, hxs⟩
        exact PyVal.noConfusion hxs
      · rintro (h | h)
        · exact absurd h (not_lt.mpr hlen)
        · exact absurd h hkw

/-- C1 counterexample: the document whose iptc section maps the
recognized label Keywords to the scalar "x" imports successfully on a
fresh adapter, but the following export binds Keywords to the list ["x"],
which is not equal to the scalar "x"; the claim as stated (exact equality
for scalar values of the document) therefore fails. -/
theorem roundtrip_keywords_scalar_counterexample :
    from_dict libTest ⟨[], [], 0⟩
        ⟨some [("Keywords", PyVal.scalar "x")]⟩ =
      .ok ⟨[⟨"Iptc.Application2.Keywords", "x"⟩],
        [⟨"Iptc.Application2.Keywords", "x"⟩], 1⟩ ∧
    (exportIptc libTest [⟨"Iptc.Application2.Keywords", "x"⟩]).lookup
        "Keywords" = some (PyVal.list ["x"]) ∧
    some (PyVal.list ["x"]) ≠ some (PyVal.scalar "x") := by
  refine ⟨?_, ?_, ?_⟩ <;> decide

/-- C1 witness for the amended round-trip theorem. -/
theorem from_dict_to_dict_roundtrip_witness :
    ∃ a2, from_dict libTest ⟨[], [], 0⟩
        ⟨some [("Caption", PyVal.scalar "y"),
               ("Keywords", PyVal.list ["k1", "k2", "k1"])]⟩ = .ok a2 ∧
      ∀ p ∈ [("Caption", PyVal.scalar "y"),
             ("Keywords", PyVal.list ["k1", "k2", "k1"])], ∃ w,
        (exportIptc libTest a2.mem).lookup p.1 = some w ∧
        elemsOf w = dedupFirst (elemsOf p.2) ∧
        (∀ s, s ∈ elemsOf w ↔ s ∈ elemsOf p.2) ∧
        (elemsOf w).Nodup ∧
        ((∃ xs, w = PyVal.list xs) ↔
          (1 < (dedupFirst (elemsOf p.2)).length ∨ p.1 = "Keywords")) :=
  from_dict_to_dict_roundtrip libTest ⟨[], [], 0⟩
    [("Caption", PyVal.scalar "y"),
     ("Keywords", PyVal.list ["k1", "k2", "k1"])]
    List.Pairwise.nil (by decide) (by decide)
    (by
      intro p hp r hr
      refine ⟨rfl, ?_⟩
      simp only [List.mem_cons, List.mem_singleton] at hp
      rcases hp with rfl | hp
      · have h3 : ("Iptc.Application2.Caption" : String) = r :=
          Option.some.inj ((show lookupRaw "Caption" =
            some "Iptc.Application2.Caption" from rfl).symm.trans hr)
        rw [← h3]
        decide
      · rcases hp with rfl | hp
        · have h3 : ("Iptc.Application2.Keywords" : String) = r :=
            Option.some.inj ((show lookupRaw "Keywords" =
              some "Iptc.Application2.Keywords" from rfl).symm.trans hr)
          rw [← h3]
          decide
        · cases hp)
    (by decide)
    (by intro d hd; cases hd)

end SimplePhotoMeta
